import Mathlib

/-!
Shallow embedding of `gvfsh.py`, an interactive shell over a GVFS mount.

External effects (the `gio` tool, the real filesystem, the `cp` binary)
are modelled by a `World` of black-box functions; the shell's command
dispatch (`repl` in the source) becomes a `step` function from a parsed
command to a new state plus a list of observable effects.  A fatal exit
(`sys.exit`) is the `Except.error` case of the monad `M`.
-/

/-! ### Python string primitives

The source manipulates Python `str` values with `strip`, `startswith`,
`replace` and `pathlib` parsing.  These are re-implemented here over
`List Char` with structural recursion so that the kernel can evaluate
them on concrete inputs. -/

/-- Whitespace characters stripped by Python `str.strip()` (ASCII subset). -/
def pyIsSpace (c : Char) : Bool :=
  c = ' ' || c = '\t' || c = '\n' || c = '\r' || c = '\x0b' || c = '\x0c'

/-- Python `s.strip()`: drop leading and trailing whitespace. -/
def pyStrip (s : String) : String :=
  ⟨((s.data.dropWhile pyIsSpace).reverse.dropWhile pyIsSpace).reverse⟩

/-- Python `s.startswith(p)`. -/
def pyStartsWith (s p : String) : Bool :=
  p.data.isPrefixOf s.data

/-- Replace non-overlapping occurrences of `old` left to right; `fuel`
bounds the recursion and is chosen ≥ the string length by the caller. -/
def replaceFuel (old new : List Char) : Nat → List Char → List Char
  | _, [] => []
  | 0, s => s
  | Nat.succ f, c :: rest =>
    if old.isPrefixOf (c :: rest) then
      new ++ replaceFuel old new f ((c :: rest).drop old.length)
    else c :: replaceFuel old new f rest

/-- Python `s.replace(old, new)` for nonempty `old`. -/
def pyReplace (s old new : String) : String :=
  ⟨replaceFuel old.data new.data s.data.length s.data⟩

/-- Case-sensitive lexicographic comparison by code point, the order used
by Python `sorted` on strings. -/
def charListLe : List Char → List Char → Bool
  | [], _ => true
  | _ :: _, [] => false
  | a :: as, b :: bs =>
    if a.toNat < b.toNat then true
    else if b.toNat < a.toNat then false
    else charListLe as bs

def strLe (s t : String) : Bool := charListLe s.data t.data

/-- The comparison `strLe`, as a relation on strings. -/
def strLeP (a b : String) : Prop := strLe a b = true

/-! ### Paths

Both mount-tree entries and real-filesystem paths are `pathlib.Path`
values in the source; `PPath` models a `PurePosixPath` as an absolute
flag plus components (empty and `.` components are dropped, as pathlib
does). -/

structure PPath where
  absolute : Bool
  comps : List String
deriving DecidableEq, Repr

/-- Split a character list on `/`. -/
def splitSlash : List Char → List (List Char)
  | [] => [[]]
  | c :: rest =>
    if c = '/' then [] :: splitSlash rest
    else
      match splitSlash rest with
      | [] => [[c]]
      | h :: t => (c :: h) :: t

/-- Parsing `Path(s)` of a POSIX string `s`. -/
def parsePath (s : String) : PPath :=
  { absolute := pyStartsWith s "/",
    comps := ((splitSlash s.data).map (fun l => (⟨l⟩ : String))).filter
      (fun c => c ≠ "" && c ≠ ".") }

/-- Rendering `str(p)` of a `PPath`. -/
def PPath.str (p : PPath) : String :=
  if p.comps.isEmpty then (if p.absolute then "/" else ".")
  else (if p.absolute then "/" else "") ++ String.intercalate "/" p.comps

/-- Join `p / s`: pathlib `/` discards the left operand when `s` is absolute. -/
def PPath.div (p : PPath) (s : String) : PPath :=
  let q := parsePath s
  if q.absolute then q else ⟨p.absolute, p.comps ++ q.comps⟩

/-- Attribute `p.name`: the final component, `""` for a root. -/
def PPath.name (p : PPath) : String := p.comps.getLastD ""

/-! ### The external world -/

/-- Black-box model of everything outside the shell: the `gio` tool,
the mount enumeration (`Path.iterdir`), the real filesystem, and the
success of the two copy primitives and `mkdir`.  `gioRun p` is the
line-split output of `gio info p` when it exits 0, `none` when it exits
non-zero; a missing `gio` binary is the global flag `gioAvailable`. -/
structure World where
  gioAvailable : Bool
  gioRun : PPath → Option (List String)
  children : PPath → List PPath
  realExists : PPath → Bool
  realIsDir : PPath → Bool
  cpOk : String → String → Bool
  gioCopyOk : String → String → Bool
  mkdirOk : PPath → Bool

/-- Fallible computations; `Except.error ()` is `sys.exit` / an uncaught
exception terminating the process. -/
abbrev M := Except Unit

deriving instance DecidableEq for Except

/-- Observable side effects: printed lines and external tool invocations. -/
inductive Eff where
  | msg (s : String)
  | cpRun (src dst : String)
  | gioCopyRun (src dst : String)
  | gioInfoRun (p : PPath)
  | mkdirRun (p : PPath)
  | clearScreen
deriving DecidableEq, Repr

/-! ### Name Resolver (`get_display_name`, source lines 20–32) -/

/-- Scan `gio info` output for the first `standard::display-name:` line
and return its trimmed value (source lines 23–26). -/
def parseDisplayName (lines : List String) : Option String :=
  lines.findSome? fun l =>
    let t := pyStrip l
    if pyStartsWith t "standard::display-name:" then
      some (pyStrip (pyReplace t "standard::display-name:" ""))
    else none

/-- The pure value `get_display_name` computes when `gio` is runnable. -/
def resolveName (w : World) (p : PPath) : Option String :=
  match w.gioRun p with
  | some lines => parseDisplayName lines
  | none => none

/-- Resolver `get_display_name(path)`: `none` on a per-entry `gio` failure (after
printing an error), fatal when the `gio` binary is missing. -/
def get_display_name (w : World) (p : PPath) : M (Option String × List Eff) :=
  if w.gioAvailable then
    match w.gioRun p with
    | some lines => .ok (parseDisplayName lines, [])
    | none => .ok (none, [Eff.msg ("[ERROR] Failed to run gio info on " ++ p.str)])
  else .error ()

/-- The resolved name as the mapping-building caller sees it: the code
keeps an entry only under `if display_name:`, so an empty string counts
as a failure exactly like `None` (source line 39). -/
def truthyName (w : World) (p : PPath) : Option String :=
  match resolveName w p with
  | some n => if n = "" then none else some n
  | none => none

/-! ### Directory Mapping Builder (`list_dir`, source lines 34–47)

A Python `dict` is modelled as an association list with unique keys:
assignment overwrites in place on an existing key and appends otherwise. -/

def insertMapping (m : List (String × PPath)) (k : String) (v : PPath) :
    List (String × PPath) :=
  if (m.map Prod.fst).contains k then
    m.map (fun kv => if kv.1 = k then (k, v) else kv)
  else m ++ [(k, v)]

def lookupName : List (String × PPath) → String → Option PPath
  | [], _ => none
  | (k2, v) :: rest, k => if k2 = k then some v else lookupName rest k

/-- The mapping `list_dir` builds, as a pure function of the enumerated
children (meaningful when `gio` is available). -/
def buildMappingAux (w : World) : List PPath → List (String × PPath) → List (String × PPath)
  | [], m => m
  | c :: rest, m =>
    match truthyName w c with
    | some n => buildMappingAux w rest (insertMapping m n c)
    | none => buildMappingAux w rest m

def buildMapping (w : World) (cs : List PPath) : List (String × PPath) :=
  buildMappingAux w cs []

/-- Error lines printed while resolving each child in order. -/
def errEffs (w : World) (cs : List PPath) : List Eff :=
  cs.filterMap fun c =>
    match w.gioRun c with
    | some _ => none
    | none => some (Eff.msg ("[ERROR] Failed to run gio info on " ++ c.str))

/-- Insertion sort by `strLe`, the sorted-key iteration of `sorted(mapping)`. -/
def insertSorted (s : String) : List String → List String
  | [] => [s]
  | t :: rest => if strLe s t then s :: t :: rest else t :: insertSorted s rest

def sortNames (l : List String) : List String := l.foldr insertSorted []

/-- The per-child loop of `list_dir` (source lines 37–40). -/
def list_dir_loop (w : World) :
    List PPath → List (String × PPath) → List Eff → M (List (String × PPath) × List Eff)
  | [], m, effs => .ok (m, effs)
  | c :: rest, m, effs =>
    match get_display_name w c with
    | .error e => .error e
    | .ok (dn, es) =>
      match dn with
      | some n =>
        if n = "" then list_dir_loop w rest m (effs ++ es)
        else list_dir_loop w rest (insertMapping m n c) (effs ++ es)
      | none => list_dir_loop w rest m (effs ++ es)

/-- Builder `list_dir(path, ..., silent)`: build the fresh mapping; when not
silent, print the display names in sorted order (source lines 41–43). -/
def list_dir (w : World) (p : PPath) (silent : Bool) :
    M (List (String × PPath) × List Eff) :=
  match list_dir_loop w (w.children p) [] [] with
  | .error e => .error e
  | .ok (m, effs) =>
    .ok (m, if silent then effs else effs ++ (sortNames (m.map Prod.fst)).map Eff.msg)

/-! ### Session state and command dispatch (`repl`, source lines 74–242) -/

/-- The mutable state of `repl`: the location stack (root first, current
location last), the global `current_path`, and the `name_to_path` store
refreshed by `ls` and `cd`. -/
structure St where
  path_stack : List PPath
  current_path : PPath
  name_to_path : List (String × PPath)
deriving DecidableEq, Repr

/-- Classification of a copy source, mirroring the branch conditions at
source lines 154 and 166–168. -/
inductive SrcClass where
  | real
  | mount (e : PPath)
  | miss
deriving DecidableEq, Repr

def classifySrc (w : World) (m : List (String × PPath)) (src : String) : SrcClass :=
  if (parsePath src).absolute && w.realExists (parsePath src) then .real
  else
    match lookupName m src with
    | some e => .mount e
    | none => .miss

/-- Command `cd` (source lines 103–124).  `pyStrip arg` is the local `target` of
the source; the popped stack (nonempty, since the length was > 1) is
written out inline. -/
def cdCmd (w : World) (st : St) (arg : String) : M (St × List Eff) :=
  if pyStrip arg = ".." then
    if st.path_stack.length > 1 then
      .ok ({ st with
             path_stack := st.path_stack.dropLast
             current_path := st.path_stack.dropLast.getLastD st.current_path }, [])
    else .ok (st, [])
  else
    match list_dir w st.current_path true with
    | .error e => .error e
    | .ok (mapping, e1) =>
      match lookupName mapping (pyStrip arg) with
      | some new_path =>
        .ok ({ path_stack := st.path_stack ++ [new_path], current_path := new_path,
               name_to_path := mapping }, e1)
      | none =>
        .ok ({ st with name_to_path := mapping },
             e1 ++ [Eff.msg ("cd: no such file or directory: " ++ pyStrip arg)])

/-- Command `mkdir` (source lines 126–142).  `pyStrip arg` is the local
`dir_name`, `st.current_path.div (pyStrip arg)` the local `new_dir`. -/
def mkdirCmd (w : World) (st : St) (arg : String) : M (St × List Eff) :=
  match list_dir w st.current_path true with
  | .error e => .error e
  | .ok (mapping, e1) =>
    if (lookupName mapping (pyStrip arg)).isSome then
      .ok (st, e1 ++ [Eff.msg ("mkdir: directory already exists: " ++ pyStrip arg)])
    else
      if w.mkdirOk (st.current_path.div (pyStrip arg)) then
        .ok (st, e1 ++ [Eff.mkdirRun (st.current_path.div (pyStrip arg)),
                        Eff.msg ("Created directory: " ++ pyStrip arg)])
      else
        .ok (st, e1 ++ [Eff.mkdirRun (st.current_path.div (pyStrip arg)),
                        Eff.msg "mkdir: failed"])

/-- Destination fix-up of the Mount→Real copy branch (source lines
173–177): when the real destination is an existing directory, append the
source's resolved display name (skipped when resolution yields nothing). -/
def gioDst (w : World) (src dst0 : PPath) : M (PPath × List Eff) :=
  if w.realIsDir dst0 then
    match get_display_name w src with
    | .error e => .error e
    | .ok (dn, e2) =>
      match dn with
      | some n => .ok (if n = "" then dst0 else dst0.div n, e2)
      | none => .ok (dst0, e2)
  else .ok (dst0, [])

/-- Destination of the Real-source branch (source lines 156–158): the
mapping entry named `dst_arg` if present, else appended under the
current location. -/
def realDst (mapping : List (String × PPath)) (cur : PPath) (dst_arg : String) : PPath :=
  match lookupName mapping dst_arg with
  | some d => d
  | none => cur.div dst_arg

/-- Command `cp` (source lines 145–190).  `parsePath src_arg` is the local
`src_path` of the source. -/
def cpCmd (w : World) (st : St) (src_arg dst_arg : String) : M (St × List Eff) :=
  match list_dir w st.current_path true with
  | .error e => .error e
  | .ok (mapping, e1) =>
    if (parsePath src_arg).absolute && w.realExists (parsePath src_arg) then
      -- Local filesystem → GVFS
      if w.cpOk (parsePath src_arg).str (realDst mapping st.current_path dst_arg).str then
        .ok (st, e1 ++ [Eff.cpRun (parsePath src_arg).str
                          (realDst mapping st.current_path dst_arg).str,
                        Eff.msg ("Copied " ++ (parsePath src_arg).str ++ " → " ++
                          (realDst mapping st.current_path dst_arg).str)])
      else
        .ok (st, e1 ++ [Eff.cpRun (parsePath src_arg).str
                          (realDst mapping st.current_path dst_arg).str,
                        Eff.msg "cp: failed"])
    else
      -- GVFS file → something
      match lookupName mapping src_arg with
      | none => .ok (st, e1 ++ [Eff.msg ("cp: no such file: " ++ src_arg)])
      | some src =>
        if pyStartsWith dst_arg "/" then
          -- GVFS → real filesystem
          match gioDst w src (parsePath dst_arg) with
          | .error e => .error e
          | .ok (dst_path, e2) =>
            if w.gioCopyOk src.str dst_path.str then
              .ok (st, e1 ++ e2 ++ [Eff.gioCopyRun src.str dst_path.str,
                    Eff.msg ("Copied " ++ src.str ++ " → " ++ dst_path.str ++ " via gio")])
            else
              .ok (st, e1 ++ e2 ++ [Eff.gioCopyRun src.str dst_path.str,
                    Eff.msg "gio cp failed"])
        else
          -- GVFS → GVFS
          if w.cpOk src.str (st.current_path.div dst_arg).str then
            .ok (st, e1 ++ [Eff.cpRun src.str (st.current_path.div dst_arg).str,
                            Eff.msg ("Copied " ++ src.str ++ " → " ++
                              (st.current_path.div dst_arg).str)])
          else
            .ok (st, e1 ++ [Eff.cpRun src.str (st.current_path.div dst_arg).str,
                            Eff.msg "cp: failed"])

/-- Human-readable names of the stack entries after the root, with the
raw internal name as fallback (source lines 196–198). -/
def renderPath (w : World) : List PPath → M (List String × List Eff)
  | [] => .ok ([], [])
  | p :: rest =>
    match get_display_name w p with
    | .error e => .error e
    | .ok (dn, e1) =>
      let nm := match dn with
        | some n => if n = "" then p.name else n
        | none => p.name
      match renderPath w rest with
      | .error e => .error e
      | .ok (names, e2) => .ok (nm :: names, e1 ++ e2)

/-- Command `pwd` (source lines 194–199). -/
def pwdCmd (w : World) (st : St) : M (St × List Eff) :=
  match renderPath w st.path_stack.tail with
  | .error e => .error e
  | .ok (names, e1) =>
    .ok (st, e1 ++ [Eff.msg
      (if names.isEmpty then "/" else "/" ++ String.intercalate "/" names)])

/-- Command `info` (source lines 204–220).  `pyStrip arg` is the local `target`;
the branch is reachable only after a child resolved successfully, so the
missing-`gio` exception path of its `check_output` call cannot occur. -/
def infoCmd (w : World) (st : St) (arg : String) : M (St × List Eff) :=
  match list_dir w st.current_path true with
  | .error e => .error e
  | .ok (mapping, e1) =>
    match lookupName mapping (pyStrip arg) with
    | none => .ok (st, e1 ++ [Eff.msg ("info: no such file: " ++ pyStrip arg)])
    | some tp =>
      match w.gioRun tp with
      | some lines =>
        .ok (st, e1 ++ [Eff.gioInfoRun tp, Eff.msg (String.intercalate "\n" lines)])
      | none =>
        .ok (st, e1 ++ [Eff.gioInfoRun tp,
                        Eff.msg ("[ERROR] Failed to get info on " ++ tp.str)])

/-- Help text; its exact wording is argument/help scaffolding outside the
modelled core. -/
def helpText : String :=
  "Available commands: ls cd cp pwd help exit clear info"

def liftCmd (r : M (St × List Eff)) : M (St × List Eff × Bool) :=
  match r with
  | .error e => .error e
  | .ok (s, es) => .ok (s, es, false)

/-- One iteration of the `repl` dispatch on an already-tokenized command
line: the new state, the observable effects, and whether the loop exits. -/
def step (w : World) (st : St) (cmd : String) (args : List String) :
    M (St × List Eff × Bool) :=
  if cmd = "exit" then .ok (st, [], true)
  else if cmd = "ls" then
    match list_dir w st.current_path false with
    | .error e => .error e
    | .ok (mapping, effs) => .ok ({ st with name_to_path := mapping }, effs, false)
  else if cmd = "cd" then
    match args with
    | [] => .ok (st, [Eff.msg "cd: missing argument"], false)
    | a :: _ => liftCmd (cdCmd w st a)
  else if cmd = "mkdir" then
    match args with
    | [] => .ok (st, [Eff.msg "mkdir: missing argument"], false)
    | a :: _ => liftCmd (mkdirCmd w st a)
  else if cmd = "cp" then
    match args with
    | [s, d] => liftCmd (cpCmd w st s d)
    | _ => .ok (st, [Eff.msg "cp: usage: cp <src> <dst>"], false)
  else if cmd = "pwd" then liftCmd (pwdCmd w st)
  else if cmd = "clear" then .ok (st, [Eff.clearScreen], false)
  else if cmd = "info" then
    match args with
    | [] => .ok (st, [Eff.msg "info: missing argument"], false)
    | a :: _ => liftCmd (infoCmd w st a)
  else if cmd = "help" then .ok (st, [Eff.msg helpText], false)
  else .ok (st, [Eff.msg (cmd ++ ": command not found")], false)

/-- Startup state: `path_stack = [current_path]` with `current_path = ROOT`. -/
def initSt (root : PPath) : St :=
  { path_stack := [root], current_path := root, name_to_path := [] }

/-- Run a list of parsed command lines through the session loop. -/
def runCmds (w : World) : St → List (String × List String) → M St
  | st, [] => .ok st
  | st, (c, as) :: rest =>
    match step w st c as with
    | .error e => .error e
    | .ok (st2, _, ex) => if ex then .ok st2 else runCmds w st2 rest

/-- The session-loop state invariant: the stack is nonempty, its first
element is the startup root, and `current_path` is the stack top. -/
def replInv (root : PPath) (st : St) : Prop :=
  st.path_stack ≠ [] ∧ st.path_stack.head? = some root ∧
    st.path_stack.getLast? = some st.current_path

instance (root : PPath) (st : St) : Decidable (replInv root st) := by
  unfold replInv; infer_instance

/-- Spec's words for the not-found destination of a Real-source copy:
"the destination string is the literal new child name under the current
mount location". -/
def specChildDest (cur : PPath) (childName : String) : PPath :=
  ⟨cur.absolute, cur.comps ++ [childName]⟩

-- scratch evaluation tests (to be removed)

/-- The children of a directory whose resolution succeeds (in the
caller's truthy sense) and the display names they contribute. -/
def succChildren (w : World) (cs : List PPath) : List PPath :=
  cs.filter (fun c => (truthyName w c).isSome)

def successNames (w : World) (cs : List PPath) : List String :=
  cs.filterMap (truthyName w)

/-! ### Concrete worlds used as evaluation inputs -/

-- demo world: root /r with one child /r/c1 displaying "A"; /tmp is a
-- real directory
def demoRoot : PPath := ⟨true, ["r"]⟩
def demoC1 : PPath := ⟨true, ["r", "c1"]⟩
def demoW : World :=
  { gioAvailable := true,
    gioRun := fun p => if p = demoC1 then some ["standard::display-name: A"] else none,
    children := fun p => if p = demoRoot then [demoC1] else [],
    realExists := fun _ => false,
    realIsDir := fun p => p = parsePath "/tmp",
    cpOk := fun _ _ => true,
    gioCopyOk := fun _ _ => true,
    mkdirOk := fun _ => true }

/-- World demoW with the `gio` binary missing. -/
def demoWNoGio : World := { demoW with gioAvailable := false }

-- world for the Real-source copy scenarios: /tmp/a.txt exists for real,
-- the mount root has no children
def realW : World :=
  { gioAvailable := true,
    gioRun := fun _ => none,
    children := fun _ => [],
    realExists := fun p => p = parsePath "/tmp/a.txt",
    realIsDir := fun _ => false,
    cpOk := fun _ _ => true,
    gioCopyOk := fun _ _ => true,
    mkdirOk := fun _ => true }

-- world with two children of the root sharing the display name "a"
def collC1 : PPath := ⟨true, ["r", "c1"]⟩
def collC2 : PPath := ⟨true, ["r", "c2"]⟩
def collW : World :=
  { gioAvailable := true,
    gioRun := fun p =>
      if p = collC1 || p = collC2 then some ["standard::display-name: a"] else none,
    children := fun p => if p = demoRoot then [collC1, collC2] else [],
    realExists := fun _ => false,
    realIsDir := fun _ => false,
    cpOk := fun _ _ => true,
    gioCopyOk := fun _ _ => true,
    mkdirOk := fun _ => true }

-- world with two children displaying "b" and "a", enumerated in that order
def sortC1 : PPath := ⟨true, ["r", "c1"]⟩
def sortC2 : PPath := ⟨true, ["r", "c2"]⟩
def sortW : World :=
  { gioAvailable := true,
    gioRun := fun p =>
      if p = sortC1 then some ["standard::display-name: b"]
      else if p = sortC2 then some ["standard::display-name: a"] else none,
    children := fun p => if p = demoRoot then [sortC1, sortC2] else [],
    realExists := fun _ => false,
    realIsDir := fun _ => false,
    cpOk := fun _ _ => true,
    gioCopyOk := fun _ _ => true,
    mkdirOk := fun _ => true }

/-- World sortW with the enumeration order of the two children swapped. -/
def sortWRev : World :=
  { sortW with children := fun p => if p = demoRoot then [sortC2, sortC1] else [] }

/-! ### Facts about the lexicographic order -/

theorem char_toNat_inj {a b : Char} (h : a.toNat = b.toNat) : a = b := by
  have ha := Char.ofNat_toNat a
  have hb := Char.ofNat_toNat b
  rw [← ha, ← hb, h]

theorem charListLe_refl (l : List Char) : charListLe l l = true := by
  induction l with
  | nil => rfl
  | cons a as ih => simp [charListLe, ih]

theorem charListLe_total (a b : List Char) : charListLe a b = true ∨ charListLe b a = true := by
  induction a generalizing b with
  | nil => exact Or.inl rfl
  | cons x xs ih =>
    cases b with
    | nil => exact Or.inr rfl
    | cons y ys =>
      simp only [charListLe]
      rcases Nat.lt_trichotomy x.toNat y.toNat with h | h | h
      · left; simp [h]
      · have hx : ¬ x.toNat < y.toNat := by omega
        have hy : ¬ y.toNat < x.toNat := by omega
        simpa [h, hx, hy] using ih ys
      · right; simp [h]

theorem charListLe_trans {a b c : List Char} (h1 : charListLe a b = true)
    (h2 : charListLe b c = true) : charListLe a c = true := by
  induction a generalizing b c with
  | nil => rfl
  | cons x xs ih =>
    cases b with
    | nil => simp [charListLe] at h1
    | cons y ys =>
      cases c with
      | nil => simp [charListLe] at h2
      | cons z zs =>
        simp only [charListLe] at h1 h2 ⊢
        split_ifs at h1 h2 ⊢ <;> first
          | rfl
          | (exact ih h1 h2)
          | omega

theorem charListLe_antisymm {a b : List Char} (h1 : charListLe a b = true)
    (h2 : charListLe b a = true) : a = b := by
  induction a generalizing b with
  | nil =>
    cases b with
    | nil => rfl
    | cons y ys => simp [charListLe] at h2
  | cons x xs ih =>
    cases b with
    | nil => simp [charListLe] at h1
    | cons y ys =>
      simp only [charListLe] at h1 h2
      split_ifs at h1 h2 <;> first
        | omega
        | (have hxy : x = y := char_toNat_inj (by omega)
           rw [hxy, ih h1 h2])

theorem strLeP_total (a b : String) : strLeP a b ∨ strLeP b a :=
  charListLe_total a.data b.data

theorem strLeP_trans {a b c : String} (h1 : strLeP a b) (h2 : strLeP b c) : strLeP a c :=
  charListLe_trans h1 h2

theorem strLeP_antisymm {a b : String} (h1 : strLeP a b) (h2 : strLeP b a) : a = b := by
  cases a with
  | mk la =>
    cases b with
    | mk lb => exact congrArg String.mk (charListLe_antisymm h1 h2)

theorem insertSorted_perm (s : String) (l : List String) :
    (insertSorted s l).Perm (s :: l) := by
  induction l with
  | nil => exact List.Perm.refl _
  | cons t rest ih =>
    simp only [insertSorted]
    split
    · exact List.Perm.refl _
    · exact (ih.cons t).trans (List.Perm.swap s t rest)

theorem sortNames_perm (l : List String) : (sortNames l).Perm l := by
  induction l with
  | nil => exact List.Perm.refl _
  | cons x rest ih =>
    simpa [sortNames] using ((insertSorted_perm x (sortNames rest)).trans (ih.cons x))

theorem mem_insertSorted {x s : String} {l : List String}
    (h : x ∈ insertSorted s l) : x = s ∨ x ∈ l := by
  have := (insertSorted_perm s l).mem_iff.mp h
  simpa using this

theorem insertSorted_sorted (s : String) {l : List String}
    (h : List.Pairwise strLeP l) : List.Pairwise strLeP (insertSorted s l) := by
  induction l with
  | nil => simp [insertSorted]
  | cons t rest ih =>
    rcases List.pairwise_cons.mp h with ⟨ht, hrest⟩
    simp only [insertSorted]
    split
    · rename_i hle
      refine List.pairwise_cons.mpr ⟨?_, h⟩
      intro y hy
      rcases List.mem_cons.mp hy with rfl | hy
      · exact hle
      · exact strLeP_trans hle (ht y hy)
    · rename_i hnle
      have hts : strLeP t s := by
        rcases strLeP_total s t with hst | hts
        · exact absurd hst hnle
        · exact hts
      refine List.pairwise_cons.mpr ⟨?_, ih hrest⟩
      intro y hy
      rcases mem_insertSorted hy with rfl | hy
      · exact hts
      · exact ht y hy

theorem sortNames_sorted (l : List String) : List.Pairwise strLeP (sortNames l) := by
  induction l with
  | nil => simp [sortNames]
  | cons x rest ih => simpa [sortNames] using insertSorted_sorted x ih

theorem sortNames_eq_of_perm {l1 l2 : List String} (h : l1.Perm l2) :
    sortNames l1 = sortNames l2 :=
  @List.eq_of_perm_of_sorted String strLeP ⟨fun _ _ => strLeP_antisymm⟩ _ _
    ((sortNames_perm l1).trans (h.trans (sortNames_perm l2).symm))
    (sortNames_sorted l1) (sortNames_sorted l2)


/-! ### Facts about the mapping builder -/

theorem contains_iff_mem {l : List String} {k : String} : l.contains k = true ↔ k ∈ l := by
  induction l with
  | nil => simp
  | cons a as ih => simp

theorem insertMapping_keys (m : List (String × PPath)) (k : String) (v : PPath) :
    (insertMapping m k v).map Prod.fst =
      if (m.map Prod.fst).contains k then m.map Prod.fst else m.map Prod.fst ++ [k] := by
  unfold insertMapping
  split
  · rw [List.map_map]
    apply List.map_congr_left
    intro kv _
    by_cases hk : kv.1 = k <;> simp [hk, Function.comp]
  · simp

theorem mem_insertMapping {m : List (String × PPath)} {k : String} {v : PPath}
    {kv : String × PPath} (h : kv ∈ insertMapping m k v) : kv = (k, v) ∨ kv ∈ m := by
  unfold insertMapping at h
  split at h
  · rcases List.mem_map.mp h with ⟨kv0, hkv0, heq⟩
    by_cases hk : kv0.1 = k
    · left; rw [← heq]; simp [hk]
    · right; rw [← heq]; simp only [hk, if_false]; exact hkv0
  · rcases List.mem_append.mp h with h | h
    · right; exact h
    · left; simpa using h

theorem insertMapping_keys_nodup {m : List (String × PPath)} {k : String} {v : PPath}
    (h : (m.map Prod.fst).Nodup) : ((insertMapping m k v).map Prod.fst).Nodup := by
  rw [insertMapping_keys]
  split
  · exact h
  · rename_i hc
    have hk : k ∉ m.map Prod.fst := fun hm => hc (contains_iff_mem.mpr hm)
    simp [List.nodup_append, h, hk]

theorem insertMapping_mem_keys {m : List (String × PPath)} {k : String} {v : PPath}
    {k2 : String} :
    k2 ∈ (insertMapping m k v).map Prod.fst ↔ k2 = k ∨ k2 ∈ m.map Prod.fst := by
  rw [insertMapping_keys]
  split
  · rename_i hc
    have hk : k ∈ m.map Prod.fst := contains_iff_mem.mp hc
    constructor
    · exact Or.inr
    · rintro (rfl | h)
      · exact hk
      · exact h
  · simp [List.mem_append, or_comm]

theorem buildMappingAux_keys_nodup (w : World) (cs : List PPath) :
    ∀ m, (m.map Prod.fst).Nodup → ((buildMappingAux w cs m).map Prod.fst).Nodup := by
  induction cs with
  | nil => intro m h; exact h
  | cons c rest ih =>
    intro m h
    simp only [buildMappingAux]
    cases htn : truthyName w c with
    | some n => exact ih _ (insertMapping_keys_nodup h)
    | none => exact ih _ h

theorem buildMappingAux_mem_keys (w : World) (cs : List PPath) :
    ∀ m k, k ∈ (buildMappingAux w cs m).map Prod.fst ↔
      k ∈ m.map Prod.fst ∨ k ∈ successNames w cs := by
  induction cs with
  | nil => intro m k; simp [successNames, buildMappingAux]
  | cons c rest ih =>
    intro m k
    cases htn : truthyName w c with
    | some n =>
      simp only [buildMappingAux, htn, successNames, List.filterMap_cons]
      rw [ih]
      simp only [insertMapping_mem_keys]
      constructor
      · rintro ((rfl | h) | h)
        · exact Or.inr (by simp [successNames])
        · exact Or.inl h
        · exact Or.inr (by simp [successNames] at h ⊢; exact Or.inr h)
      · rintro (h | h)
        · exact Or.inl (Or.inr h)
        · simp only [List.mem_cons] at h
          rcases h with rfl | h
          · exact Or.inl (Or.inl rfl)
          · exact Or.inr (by simpa [successNames] using h)
    | none =>
      simp only [buildMappingAux, htn, successNames, List.filterMap_cons]
      rw [ih]
      simp [successNames]

theorem buildMappingAux_mem_pairs (w : World) (cs : List PPath) :
    ∀ m kv, kv ∈ buildMappingAux w cs m →
      kv ∈ m ∨ (kv.2 ∈ cs ∧ truthyName w kv.2 = some kv.1) := by
  induction cs with
  | nil => intro m kv h; exact Or.inl h
  | cons c rest ih =>
    intro m kv h
    cases htn : truthyName w c with
    | some n =>
      simp only [buildMappingAux, htn] at h
      rcases ih _ _ h with h2 | ⟨hin, hres⟩
      · rcases mem_insertMapping h2 with rfl | h3
        · exact Or.inr ⟨by simp, by simpa using htn⟩
        · exact Or.inl h3
      · exact Or.inr ⟨List.mem_cons_of_mem _ hin, hres⟩
    | none =>
      simp only [buildMappingAux, htn] at h
      rcases ih _ _ h with h2 | ⟨hin, hres⟩
      · exact Or.inl h2
      · exact Or.inr ⟨List.mem_cons_of_mem _ hin, hres⟩

theorem buildMapping_keys_nodup (w : World) (cs : List PPath) :
    ((buildMapping w cs).map Prod.fst).Nodup :=
  buildMappingAux_keys_nodup w cs [] (by simp)

theorem buildMapping_mem_keys (w : World) (cs : List PPath) (k : String) :
    k ∈ (buildMapping w cs).map Prod.fst ↔ k ∈ successNames w cs := by
  have := buildMappingAux_mem_keys w cs [] k
  simpa [buildMapping] using this

theorem buildMapping_mem_pairs {w : World} {cs : List PPath} {kv : String × PPath}
    (h : kv ∈ buildMapping w cs) : kv.2 ∈ cs ∧ truthyName w kv.2 = some kv.1 := by
  rcases buildMappingAux_mem_pairs w cs [] kv h with h2 | h2
  · simp at h2
  · exact h2

theorem lookupName_mem {m : List (String × PPath)} {k : String} {v : PPath}
    (h : lookupName m k = some v) : (k, v) ∈ m := by
  induction m with
  | nil => simp [lookupName] at h
  | cons kv rest ih =>
    obtain ⟨k2, v2⟩ := kv
    simp only [lookupName] at h
    split at h
    · rename_i heq
      injection h with hv
      rw [← heq, ← hv]
      simp
    · exact List.mem_cons_of_mem _ (ih h)

theorem lookupName_isSome_iff {m : List (String × PPath)} {k : String} :
    (lookupName m k).isSome ↔ k ∈ m.map Prod.fst := by
  induction m with
  | nil => simp [lookupName]
  | cons kv rest ih =>
    obtain ⟨k2, v2⟩ := kv
    simp only [lookupName]
    split
    · rename_i heq
      simp [heq]
    · rename_i hne
      simp only [List.map_cons, List.mem_cons, ih]
      constructor
      · exact Or.inr
      · rintro (rfl | h)
        · exact absurd rfl hne
        · exact h

theorem lookupName_none_iff {m : List (String × PPath)} {k : String} :
    lookupName m k = none ↔ k ∉ m.map Prod.fst := by
  rw [← lookupName_isSome_iff]
  cases lookupName m k <;> simp

/-! ### Facts about `list_dir` -/

theorem get_display_name_ok {w : World} (h : w.gioAvailable = true) (p : PPath) :
    get_display_name w p = .ok (resolveName w p,
      match w.gioRun p with
      | some _ => []
      | none => [Eff.msg ("[ERROR] Failed to run gio info on " ++ p.str)]) := by
  unfold get_display_name resolveName
  rw [h]
  cases w.gioRun p <;> simp

theorem get_display_name_fatal {w : World} (h : w.gioAvailable = false) (p : PPath) :
    get_display_name w p = .error () := by
  unfold get_display_name
  rw [h]
  rfl

theorem list_dir_loop_ok (w : World) (h : w.gioAvailable = true) :
    ∀ (cs : List PPath) (m : List (String × PPath)) (effs : List Eff),
      list_dir_loop w cs m effs = .ok (buildMappingAux w cs m, effs ++ errEffs w cs) := by
  intro cs
  induction cs with
  | nil => intro m effs; simp [list_dir_loop, buildMappingAux, errEffs]
  | cons c rest ih =>
    intro m effs
    simp only [list_dir_loop, buildMappingAux, errEffs, List.filterMap_cons]
    rw [get_display_name_ok h]
    cases hg : w.gioRun c with
    | none =>
      have hr : resolveName w c = none := by simp [resolveName, hg]
      have ht : truthyName w c = none := by simp [truthyName, hr]
      simp only [hr, ht, ih]
      rw [show errEffs w rest = List.filterMap _ rest from rfl]
      simp [errEffs, List.append_assoc]
    | some lines =>
      have hr : resolveName w c = parseDisplayName lines := by simp [resolveName, hg]
      simp only [hr]
      cases hp : parseDisplayName lines with
      | none =>
        have ht : truthyName w c = none := by simp [truthyName, resolveName, hg, hp]
        simp [ht, ih, errEffs]
      | some n =>
        by_cases hn : n = ""
        · have ht : truthyName w c = none := by simp [truthyName, resolveName, hg, hp, hn]
          simp [hn, ht, ih, errEffs]
        · have ht : truthyName w c = some n := by simp [truthyName, resolveName, hg, hp, hn]
          simp [hn, ht, ih, errEffs]

theorem list_dir_ok_silent (w : World) (p : PPath) (h : w.gioAvailable = true) :
    list_dir w p true = .ok (buildMapping w (w.children p), errEffs w (w.children p)) := by
  unfold list_dir buildMapping
  rw [list_dir_loop_ok w h]
  simp

theorem list_dir_ok_loud (w : World) (p : PPath) (h : w.gioAvailable = true) :
    list_dir w p false = .ok (buildMapping w (w.children p),
      errEffs w (w.children p) ++
        (sortNames ((buildMapping w (w.children p)).map Prod.fst)).map Eff.msg) := by
  unfold list_dir buildMapping
  rw [list_dir_loop_ok w h]
  simp

theorem list_dir_not_available {w : World} {p : PPath} {silent : Bool}
    {m : List (String × PPath)} {e : List Eff} (hna : w.gioAvailable = false)
    (h : list_dir w p silent = .ok (m, e)) :
    w.children p = [] ∧ m = [] ∧ e = [] := by
  cases hc : w.children p with
  | nil =>
    unfold list_dir at h
    rw [hc] at h
    simp only [list_dir_loop] at h
    cases silent <;> simp_all [sortNames]
  | cons c cs =>
    unfold list_dir at h
    rw [hc] at h
    simp only [list_dir_loop, get_display_name_fatal hna] at h
    exact Except.noConfusion h

theorem list_dir_mapping {w : World} {p : PPath} {silent : Bool}
    {m : List (String × PPath)} {e : List Eff}
    (h : list_dir w p silent = .ok (m, e)) :
    m = buildMapping w (w.children p) := by
  cases hav : w.gioAvailable
  · rcases list_dir_not_available hav h with ⟨hc, hm, _⟩
    rw [hm, hc]
    rfl
  · cases silent
    · rw [list_dir_ok_loud w p hav] at h
      injection h with h2
      simpa using (congrArg Prod.fst h2).symm
    · rw [list_dir_ok_silent w p hav] at h
      injection h with h2
      simpa using (congrArg Prod.fst h2).symm

theorem list_dir_lookup_available {w : World} {p : PPath}
    {m : List (String × PPath)} {e : List Eff} {k : String} {v : PPath}
    (h : list_dir w p true = .ok (m, e)) (hl : lookupName m k = some v) :
    w.gioAvailable = true := by
  cases hav : w.gioAvailable
  · rcases list_dir_not_available hav h with ⟨_, hm, _⟩
    rw [hm] at hl
    simp [lookupName] at hl
  · rfl

theorem errEffs_msgs {w : World} {cs : List PPath} {x : Eff} (h : x ∈ errEffs w cs) :
    ∃ s, x = Eff.msg s := by
  rcases List.mem_filterMap.mp h with ⟨c, _, hc⟩
  cases hg : w.gioRun c <;> rw [hg] at hc
  · exact ⟨_, (Option.some_inj.mp hc).symm⟩
  · simp at hc

theorem list_dir_effs_msgs {w : World} {p : PPath} {m : List (String × PPath)}
    {e : List Eff} (h : list_dir w p true = .ok (m, e)) :
    ∀ x ∈ e, ∃ s, x = Eff.msg s := by
  intro x hx
  cases hav : w.gioAvailable
  · rcases list_dir_not_available hav h with ⟨_, _, he⟩
    rw [he] at hx
    simp at hx
  · rw [list_dir_ok_silent w p hav] at h
    injection h with h2
    have he : e = errEffs w (w.children p) := (congrArg Prod.snd h2).symm
    rw [he] at hx
    exact errEffs_msgs hx

/-! ### Shapes of `step` results -/

theorem ok_fst {a c : St} {b d : List Eff}
    (h : (Except.ok (a, b) : M (St × List Eff)) = .ok (c, d)) : c = a := by
  injection h with h2
  exact (congrArg Prod.fst h2).symm

theorem liftCmd_ok {r : M (St × List Eff)} {st2 : St} {effs : List Eff} {ex : Bool}
    (h : liftCmd r = .ok (st2, effs, ex)) : r = .ok (st2, effs) ∧ ex = false := by
  cases hr : r with
  | error e =>
    rw [hr] at h
    simp only [liftCmd] at h
    exact Except.noConfusion h
  | ok se =>
    obtain ⟨s, es⟩ := se
    rw [hr] at h
    simp only [liftCmd, Except.ok.injEq, Prod.mk.injEq] at h
    obtain ⟨h1, h2, h3⟩ := h
    exact ⟨by rw [h1, h2], h3.symm⟩

theorem okT_eq {a : St} {b : List Eff} {c : Bool} {a2 b2 c2}
    (h : (Except.ok (a, b, c) : M (St × List Eff × Bool)) = .ok (a2, b2, c2)) :
    a2 = a ∧ b2 = b ∧ c2 = c := by
  simp only [Except.ok.injEq, Prod.mk.injEq] at h
  exact ⟨h.1.symm, h.2.1.symm, h.2.2.symm⟩

theorem cpCmd_state {w : World} {st : St} {s d : String} {st2 : St} {e : List Eff}
    (h : cpCmd w st s d = .ok (st2, e)) : st2 = st := by
  unfold cpCmd at h
  cases hl : list_dir w st.current_path true with
  | error u =>
    simp only [hl] at h
    exact Except.noConfusion h
  | ok me =>
    obtain ⟨mapping, e1⟩ := me
    simp only [hl] at h
    split at h
    · split at h <;> exact ok_fst h
    · split at h
      · exact ok_fst h
      · split at h
        · split at h
          · exact Except.noConfusion h
          · split at h <;> exact ok_fst h
        · split at h <;> exact ok_fst h

theorem mkdirCmd_state {w : World} {st : St} {a : String} {st2 : St} {e : List Eff}
    (h : mkdirCmd w st a = .ok (st2, e)) : st2 = st := by
  unfold mkdirCmd at h
  cases hl : list_dir w st.current_path true with
  | error u => simp only [hl] at h; exact Except.noConfusion h
  | ok me =>
    obtain ⟨mapping, e1⟩ := me
    simp only [hl] at h
    split at h
    · exact ok_fst h
    · split at h <;> exact ok_fst h

theorem pwdCmd_state {w : World} {st : St} {st2 : St} {e : List Eff}
    (h : pwdCmd w st = .ok (st2, e)) : st2 = st := by
  unfold pwdCmd at h
  cases hr : renderPath w st.path_stack.tail with
  | error u => simp only [hr] at h; exact Except.noConfusion h
  | ok ne =>
    obtain ⟨names, e1⟩ := ne
    simp only [hr] at h
    exact ok_fst h

theorem infoCmd_state {w : World} {st : St} {a : String} {st2 : St} {e : List Eff}
    (h : infoCmd w st a = .ok (st2, e)) : st2 = st := by
  unfold infoCmd at h
  cases hl : list_dir w st.current_path true with
  | error u => simp only [hl] at h; exact Except.noConfusion h
  | ok me =>
    obtain ⟨mapping, e1⟩ := me
    simp only [hl] at h
    split at h
    · exact ok_fst h
    · split at h <;> exact ok_fst h

theorem cdCmd_shape {w : World} {st : St} {a : String} {st2 : St} {e : List Eff}
    (h : cdCmd w st a = .ok (st2, e)) :
    (st2.path_stack = st.path_stack ∧ st2.current_path = st.current_path)
    ∨ (st.path_stack.length > 1 ∧ st2.path_stack = st.path_stack.dropLast ∧
        st2.current_path = st.path_stack.dropLast.getLastD st.current_path)
    ∨ (∃ v, st2.path_stack = st.path_stack ++ [v] ∧ st2.current_path = v) := by
  unfold cdCmd at h
  split at h
  · split at h
    · rename_i hlen
      have h2 := ok_fst h
      exact Or.inr (Or.inl ⟨hlen, by rw [h2], by rw [h2]⟩)
    · have h2 := ok_fst h
      exact Or.inl ⟨by rw [h2], by rw [h2]⟩
  · cases hl : list_dir w st.current_path true with
    | error u => simp only [hl] at h; exact Except.noConfusion h
    | ok me =>
      obtain ⟨mapping, e1⟩ := me
      simp only [hl] at h
      split at h
      · rename_i v hv
        have h2 := ok_fst h
        exact Or.inr (Or.inr ⟨v, by rw [h2], by rw [h2]⟩)
      · have h2 := ok_fst h
        exact Or.inl ⟨by rw [h2], by rw [h2]⟩

theorem step_stack_shape {w : World} {st : St} {cmd : String} {args : List String}
    {st2 : St} {effs : List Eff} {ex : Bool}
    (h : step w st cmd args = .ok (st2, effs, ex)) :
    (st2.path_stack = st.path_stack ∧ st2.current_path = st.current_path)
    ∨ (st.path_stack.length > 1 ∧ st2.path_stack = st.path_stack.dropLast ∧
        st2.current_path = st.path_stack.dropLast.getLastD st.current_path)
    ∨ (∃ v, st2.path_stack = st.path_stack ++ [v] ∧ st2.current_path = v) := by
  unfold step at h
  split_ifs at h
  · exact Or.inl ⟨by rw [(okT_eq h).1], by rw [(okT_eq h).1]⟩
  · cases hl : list_dir w st.current_path false <;> rw [hl] at h
    · exact Except.noConfusion h
    · rename_i me
      obtain ⟨mapping, e1⟩ := me
      exact Or.inl ⟨by rw [(okT_eq h).1], by rw [(okT_eq h).1]⟩
  · match args, h with
    | [], h => exact Or.inl ⟨by rw [(okT_eq h).1], by rw [(okT_eq h).1]⟩
    | a :: rest, h => exact cdCmd_shape (liftCmd_ok h).1
  · match args, h with
    | [], h => exact Or.inl ⟨by rw [(okT_eq h).1], by rw [(okT_eq h).1]⟩
    | a :: rest, h =>
      have h2 := mkdirCmd_state (liftCmd_ok h).1
      exact Or.inl ⟨by rw [h2], by rw [h2]⟩
  · match args, h with
    | [s, d], h =>
      have h2 := cpCmd_state (liftCmd_ok h).1
      exact Or.inl ⟨by rw [h2], by rw [h2]⟩
    | [], h => exact Or.inl ⟨by rw [(okT_eq h).1], by rw [(okT_eq h).1]⟩
    | [a], h => exact Or.inl ⟨by rw [(okT_eq h).1], by rw [(okT_eq h).1]⟩
    | a :: b :: c :: rest, h => exact Or.inl ⟨by rw [(okT_eq h).1], by rw [(okT_eq h).1]⟩
  · have h2 := pwdCmd_state (liftCmd_ok h).1
    exact Or.inl ⟨by rw [h2], by rw [h2]⟩
  · exact Or.inl ⟨by rw [(okT_eq h).1], by rw [(okT_eq h).1]⟩
  · match args, h with
    | [], h => exact Or.inl ⟨by rw [(okT_eq h).1], by rw [(okT_eq h).1]⟩
    | a :: rest, h =>
      have h2 := infoCmd_state (liftCmd_ok h).1
      exact Or.inl ⟨by rw [h2], by rw [h2]⟩
  · exact Or.inl ⟨by rw [(okT_eq h).1], by rw [(okT_eq h).1]⟩
  · exact Or.inl ⟨by rw [(okT_eq h).1], by rw [(okT_eq h).1]⟩

/-! ### Stack facts and the session invariant -/

theorem head?_append_ne_nil {α : Type} {l : List α} (v : α) (h : l ≠ []) :
    (l ++ [v]).head? = l.head? := by
  cases l with
  | nil => exact absurd rfl h
  | cons a t => rfl

theorem dropLast_head? {α : Type} {l : List α} (h : l.length > 1) :
    l.dropLast.head? = l.head? := by
  match l, h with
  | [], h => simp at h
  | [a], h => simp at h
  | a :: b :: t, _ => rfl

theorem getLast?_eq_some_getLastD {α : Type} (l : List α) (d : α) (h : l ≠ []) :
    l.getLast? = some (l.getLastD d) := by
  have h2 : l.getLastD d = (l.getLast?).getD d := List.getLastD_eq_getLast? _ _
  obtain ⟨x, hx⟩ := Option.isSome_iff_exists.mp (List.getLast?_isSome.mpr h)
  rw [hx] at h2 ⊢
  simp only [Option.getD_some] at h2
  rw [h2]

theorem step_preserves_inv {w : World} {st : St} {cmd : String} {args : List String}
    {st2 : St} {effs : List Eff} {ex : Bool} {root : PPath} (hinv : replInv root st)
    (h : step w st cmd args = .ok (st2, effs, ex)) : replInv root st2 := by
  obtain ⟨hne, hhd, hlast⟩ := hinv
  rcases step_stack_shape h with ⟨h1, h2⟩ | ⟨hlen, h1, h2⟩ | ⟨v, h1, h2⟩
  · exact ⟨by rw [h1]; exact hne, by rw [h1]; exact hhd, by rw [h1, h2]; exact hlast⟩
  · have hdl : st.path_stack.dropLast ≠ [] := by
      apply List.ne_nil_of_length_pos
      rw [List.length_dropLast]
      omega
    refine ⟨by rw [h1]; exact hdl, ?_, ?_⟩
    · rw [h1, dropLast_head? hlen]; exact hhd
    · rw [h1, h2]; exact getLast?_eq_some_getLastD _ _ hdl
  · refine ⟨by rw [h1]; simp, ?_, ?_⟩
    · rw [h1, head?_append_ne_nil v hne]; exact hhd
    · rw [h1, h2]; exact List.getLast?_concat _

theorem runCmds_preserves {w : World} {root : PPath} {cmds : List (String × List String)} :
    ∀ {st st2 : St}, replInv root st → runCmds w st cmds = .ok st2 → replInv root st2 := by
  induction cmds with
  | nil =>
    intro st st2 hinv h
    simp only [runCmds, Except.ok.injEq] at h
    rw [← h]
    exact hinv
  | cons ca rest ih =>
    intro st st2 hinv h
    obtain ⟨c, as⟩ := ca
    simp only [runCmds] at h
    cases hs : step w st c as with
    | error u => simp only [hs] at h; exact Except.noConfusion h
    | ok v =>
      obtain ⟨stm, effs, ex⟩ := v
      simp only [hs] at h
      have hinv2 := step_preserves_inv hinv hs
      cases ex with
      | true =>
        rw [if_pos rfl] at h
        injection h with h2
        rw [← h2]
        exact hinv2
      | false =>
        rw [if_neg (by simp)] at h
        exact ih hinv2 h

theorem replInv_init (root : PPath) : replInv root (initSt root) :=
  ⟨by simp [initSt], rfl, rfl⟩

/-! ### Claims -/

/-- C10: after every command processed by the session loop starting from
the startup state, the invariant holds: the location stack is non-empty,
its first element is the mount root handed over at startup, and the
session's `current_path` equals the top (last element) of the stack. -/
theorem c10_session_invariant (w : World) (root : PPath)
    (cmds : List (String × List String)) (st : St)
    (h : runCmds w (initSt root) cmds = .ok st) : replInv root st :=
  runCmds_preserves (replInv_init root) h

/-- Witness for C10 at a concrete session. -/
theorem c10_session_invariant_witness :
    replInv demoRoot ⟨[demoRoot, demoC1], demoC1, []⟩ :=
  c10_session_invariant demoW demoRoot
    [("ls", []), ("cd", ["A"]), ("pwd", []), ("nonsense", []), ("cd", ["B"])]
    ⟨[demoRoot, demoC1], demoC1, []⟩ (by decide)

/-- C6: with the stack at the mount root (size 1), `cd ..` is a complete
no-op: same state, no output, not an error, and the session continues. -/
theorem c6_ascend_at_root_noop (w : World) (st : St) (h : st.path_stack.length = 1) :
    step w st "cd" [".."] = .ok (st, [], false) := by
  have hstep : step w st "cd" [".."] = liftCmd (cdCmd w st "..") := by
    simp [step]
  rw [hstep]
  unfold cdCmd
  rw [if_pos (show pyStrip ".." = ".." from rfl)]
  rw [if_neg (by omega)]
  rfl

/-- Witness for C6. -/
theorem c6_ascend_at_root_noop_witness :
    step demoW (initSt demoRoot) "cd" [".."] = .ok (initSt demoRoot, [], false) :=
  c6_ascend_at_root_noop demoW (initSt demoRoot) rfl

theorem getLastD_congr {α : Type} {l : List α} (h : l ≠ []) (d1 d2 : α) :
    l.getLastD d1 = l.getLastD d2 := by
  have h1 := getLast?_eq_some_getLastD l d1 h
  have h2 := getLast?_eq_some_getLastD l d2 h
  rw [h1] at h2
  exact Option.some_inj.mp h2

theorem step_cd_eq (w : World) (st : St) (a : String) (rest : List String) :
    step w st "cd" (a :: rest) = liftCmd (cdCmd w st a) := by
  simp [step]

theorem cd_pop {w : World} {st st2 : St} {effs : List Eff} {ex : Bool}
    (h : step w st "cd" [".."] = .ok (st2, effs, ex))
    (hlen : st.path_stack.length > 1) :
    st2 = { st with
            path_stack := st.path_stack.dropLast
            current_path := st.path_stack.dropLast.getLastD st.current_path } ∧
      effs = [] ∧ ex = false := by
  rw [step_cd_eq] at h
  obtain ⟨h1, hex⟩ := liftCmd_ok h
  unfold cdCmd at h1
  rw [if_pos (show pyStrip ".." = ".." from rfl), if_pos hlen] at h1
  simp only [Except.ok.injEq, Prod.mk.injEq] at h1
  exact ⟨h1.1.symm, h1.2.symm, hex⟩

theorem cd_found {w : World} {st st2 : St} {t : String} {effs : List Eff} {ex : Bool}
    {v : PPath} (h : step w st "cd" [t] = .ok (st2, effs, ex))
    (ht : pyStrip t ≠ "..")
    (hv : lookupName (buildMapping w (w.children st.current_path)) (pyStrip t) = some v) :
    st2 = ⟨st.path_stack ++ [v], v, buildMapping w (w.children st.current_path)⟩ ∧
      ex = false := by
  rw [step_cd_eq] at h
  obtain ⟨h1, hex⟩ := liftCmd_ok h
  unfold cdCmd at h1
  rw [if_neg ht] at h1
  cases hl : list_dir w st.current_path true with
  | error u => simp only [hl] at h1; exact Except.noConfusion h1
  | ok me =>
    obtain ⟨mapping, e1⟩ := me
    have hmm := list_dir_mapping hl
    simp only [hl] at h1
    rw [hmm] at h1
    simp only [hv, Except.ok.injEq, Prod.mk.injEq] at h1
    exact ⟨h1.1.symm, hex⟩

/-- C7: as stated, the claim fails: from the non-root state
`[root, c1]`, ascend–descend–ascend ends at `[root]`, not back at
`[root, c1]` — the final ascend undoes the descend, it does not restore
the state from before the first ascend. -/
theorem c7_counterexample :
    step demoW ⟨[demoRoot, demoC1], demoC1, []⟩ "cd" [".."] =
        .ok (⟨[demoRoot], demoRoot, []⟩, [], false) ∧
    step demoW ⟨[demoRoot], demoRoot, []⟩ "cd" ["A"] =
        .ok (⟨[demoRoot, demoC1], demoC1, [("A", demoC1)]⟩, [], false) ∧
    step demoW ⟨[demoRoot, demoC1], demoC1, [("A", demoC1)]⟩ "cd" [".."] =
        .ok (⟨[demoRoot], demoRoot, [("A", demoC1)]⟩, [], false) ∧
    (⟨[demoRoot], demoRoot, [("A", demoC1)]⟩ : St).path_stack ≠
      (⟨[demoRoot, demoC1], demoC1, []⟩ : St).path_stack := by
  refine ⟨by decide, by decide, by decide, by decide⟩

/-- C7 (amended): from a non-root location, ascend, then a successful
descend, then ascend leaves the LocationStack in the state reached after
the first ascend — the descend/ascend pair is the identity round trip;
the sequence does not restore the stack from before the first ascend. -/
theorem c7_ascend_descend_ascend (w : World) (st st1 st2 st3 : St)
    (e1 e2 e3 : List Eff) (x1 x2 x3 : Bool) (t : String) (v : PPath)
    (h1 : step w st "cd" [".."] = .ok (st1, e1, x1))
    (hlen : st.path_stack.length > 1)
    (h2 : step w st1 "cd" [t] = .ok (st2, e2, x2))
    (ht : pyStrip t ≠ "..")
    (hv : lookupName (buildMapping w (w.children st1.current_path)) (pyStrip t) = some v)
    (h3 : step w st2 "cd" [".."] = .ok (st3, e3, x3)) :
    st3.path_stack = st1.path_stack ∧ st3.current_path = st1.current_path := by
  obtain ⟨hst1, -, -⟩ := cd_pop h1 hlen
  obtain ⟨hst2, -⟩ := cd_found h2 ht hv
  have hne0 : st.path_stack.dropLast ≠ [] := by
    apply List.ne_nil_of_length_pos
    simp only [List.length_dropLast]
    omega
  have hne1 : st1.path_stack ≠ [] := by
    rw [hst1]
    exact hne0
  have hlen2 : st2.path_stack.length > 1 := by
    rw [hst2]
    simp only [List.length_append, List.length_cons, List.length_nil]
    have := List.length_pos.mpr hne1
    omega
  obtain ⟨hst3, -, -⟩ := cd_pop h3 hlen2
  have hdrop : st2.path_stack.dropLast = st1.path_stack := by
    rw [hst2]
    exact List.dropLast_concat ..
  constructor
  · rw [hst3]
    exact hdrop
  · rw [hst3]
    simp only [hdrop]
    rw [hst1]
    exact getLastD_congr hne0 _ _

/-- Witness for the amended C7. -/
theorem c7_ascend_descend_ascend_witness :
    (⟨[demoRoot], demoRoot, [("A", demoC1)]⟩ : St).path_stack =
      (⟨[demoRoot], demoRoot, []⟩ : St).path_stack ∧
    (⟨[demoRoot], demoRoot, [("A", demoC1)]⟩ : St).current_path =
      (⟨[demoRoot], demoRoot, []⟩ : St).current_path :=
  c7_ascend_descend_ascend demoW
    ⟨[demoRoot, demoC1], demoC1, []⟩ ⟨[demoRoot], demoRoot, []⟩
    ⟨[demoRoot, demoC1], demoC1, [("A", demoC1)]⟩ ⟨[demoRoot], demoRoot, [("A", demoC1)]⟩
    [] [] [] false false false "A" demoC1
    (by decide) (by decide) (by decide) (by decide) (by decide) (by decide)

/-- C8: a `cd` whose stripped target is absent from the freshly rebuilt
mapping of the current location reports the miss, continues the session,
and leaves the LocationStack and current location unchanged. -/
theorem c8_cd_miss (w : World) (st st2 : St) (t : String) (effs : List Eff) (ex : Bool)
    (h : step w st "cd" [t] = .ok (st2, effs, ex))
    (ht : pyStrip t ≠ "..")
    (hm : lookupName (buildMapping w (w.children st.current_path)) (pyStrip t) = none) :
    st2.path_stack = st.path_stack ∧ st2.current_path = st.current_path ∧ ex = false ∧
      Eff.msg ("cd: no such file or directory: " ++ pyStrip t) ∈ effs := by
  rw [step_cd_eq] at h
  obtain ⟨h1, hex⟩ := liftCmd_ok h
  unfold cdCmd at h1
  rw [if_neg ht] at h1
  cases hl : list_dir w st.current_path true with
  | error u => simp only [hl] at h1; exact Except.noConfusion h1
  | ok me =>
    obtain ⟨mapping, e1⟩ := me
    have hmm := list_dir_mapping hl
    simp only [hl] at h1
    rw [hmm] at h1
    simp only [hm, Except.ok.injEq, Prod.mk.injEq] at h1
    obtain ⟨hst, heffs⟩ := h1
    refine ⟨by rw [← hst], by rw [← hst], hex, ?_⟩
    rw [← heffs]
    simp

/-- Witness for C8. -/
theorem c8_cd_miss_witness :
    (⟨[demoRoot], demoRoot, [("A", demoC1)]⟩ : St).path_stack =
        (initSt demoRoot).path_stack ∧
    (⟨[demoRoot], demoRoot, [("A", demoC1)]⟩ : St).current_path =
        (initSt demoRoot).current_path ∧ false = false ∧
    Eff.msg ("cd: no such file or directory: " ++ pyStrip "Nope") ∈
      [Eff.msg "cd: no such file or directory: Nope"] :=
  c8_cd_miss demoW (initSt demoRoot) ⟨[demoRoot], demoRoot, [("A", demoC1)]⟩ "Nope"
    [Eff.msg "cd: no such file or directory: Nope"] false
    (by decide) (by decide) (by decide)

/-- C9: when the external tool reports an error for one entry the
resolver returns no value (and the mapping builder drops that entry);
when the tool is missing entirely, the resolver terminates the whole
process (the fatal branch of the monad) instead of returning. -/
theorem c9_resolver_failure_modes (w : World) (p : PPath) :
    (w.gioAvailable = false → get_display_name w p = .error ()) ∧
    (w.gioAvailable = true → w.gioRun p = none →
      get_display_name w p =
        .ok (none, [Eff.msg ("[ERROR] Failed to run gio info on " ++ p.str)])) ∧
    (w.gioRun p = none → ∀ cs k, (k, p) ∉ buildMapping w cs) := by
  refine ⟨fun h => get_display_name_fatal h p, fun h hn => ?_, fun hn cs k hmem => ?_⟩
  · rw [get_display_name_ok h p]
    simp [resolveName, hn]
  · have h2 := (buildMapping_mem_pairs hmem).2
    have h3 : truthyName w p = none := by simp [truthyName, resolveName, hn]
    rw [h3] at h2
    exact Option.noConfusion h2

/-- Witness for C9: a world without `gio`, and a world where `gio info`
fails on the root. -/
theorem c9_resolver_failure_modes_witness :
    get_display_name demoWNoGio demoRoot = .error () ∧
    get_display_name demoW demoRoot =
      .ok (none, [Eff.msg ("[ERROR] Failed to run gio info on " ++ demoRoot.str)]) ∧
    ("x", demoRoot) ∉ buildMapping demoW [demoRoot, demoC1] :=
  ⟨(c9_resolver_failure_modes demoWNoGio demoRoot).1 rfl,
   (c9_resolver_failure_modes demoW demoRoot).2.1 rfl rfl,
   (c9_resolver_failure_modes demoW demoRoot).2.2 rfl [demoRoot, demoC1] "x"⟩

theorem step_cp_eq (w : World) (st : St) (s d : String) :
    step w st "cp" [s, d] = liftCmd (cpCmd w st s d) := by
  simp [step]

/-- C1: the copy source is classified Real exactly when it is an
absolute path existing on the real filesystem, else Mount exactly when
its display name is in the freshly built mapping of the current
location; on a miss the command reports "no such file", invokes neither
copy tool, and leaves the entire state unchanged. -/
theorem c1_copy_source_classification (w : World) (st st2 : St) (src dst : String)
    (effs : List Eff) (ex : Bool)
    (h : step w st "cp" [src, dst] = .ok (st2, effs, ex)) :
    (((parsePath src).absolute && w.realExists (parsePath src)) = true ↔
      classifySrc w (buildMapping w (w.children st.current_path)) src = .real) ∧
    (∀ v, ¬ ((parsePath src).absolute && w.realExists (parsePath src)) = true →
      (lookupName (buildMapping w (w.children st.current_path)) src = some v ↔
        classifySrc w (buildMapping w (w.children st.current_path)) src = .mount v)) ∧
    (classifySrc w (buildMapping w (w.children st.current_path)) src = .miss →
      st2 = st ∧ ex = false ∧
      Eff.msg ("cp: no such file: " ++ src) ∈ effs ∧
      (∀ a b, Eff.cpRun a b ∉ effs) ∧ (∀ a b, Eff.gioCopyRun a b ∉ effs)) := by
  refine ⟨?_, ?_, ?_⟩
  · unfold classifySrc
    by_cases hc : ((parsePath src).absolute && w.realExists (parsePath src)) = true
    · simp [hc]
    · rw [if_neg hc]
      simp only [hc, false_iff]
      cases lookupName (buildMapping w (w.children st.current_path)) src <;> simp
  · intro v hc
    unfold classifySrc
    rw [if_neg hc]
    cases hl : lookupName (buildMapping w (w.children st.current_path)) src <;> simp
  · intro hmiss
    have hparts : ¬ ((parsePath src).absolute && w.realExists (parsePath src)) = true ∧
        lookupName (buildMapping w (w.children st.current_path)) src = none := by
      unfold classifySrc at hmiss
      by_cases hc : ((parsePath src).absolute && w.realExists (parsePath src)) = true
      · rw [if_pos hc] at hmiss
        exact absurd hmiss (by simp)
      · rw [if_neg hc] at hmiss
        cases hl : lookupName (buildMapping w (w.children st.current_path)) src
        · exact ⟨hc, rfl⟩
        · rw [hl] at hmiss
          exact absurd hmiss (by simp)
    obtain ⟨hcond, hlook⟩ := hparts
    rw [step_cp_eq] at h
    obtain ⟨h1, hex⟩ := liftCmd_ok h
    unfold cpCmd at h1
    cases hl : list_dir w st.current_path true with
    | error u => simp only [hl] at h1; exact Except.noConfusion h1
    | ok me =>
      obtain ⟨mapping, e1⟩ := me
      have hmsgs := list_dir_effs_msgs hl
      have hmm := list_dir_mapping hl
      simp only [hl] at h1
      rw [hmm] at h1
      rw [if_neg hcond] at h1
      simp only [hlook, Except.ok.injEq, Prod.mk.injEq] at h1
      obtain ⟨hst, heffs⟩ := h1
      refine ⟨hst.symm, hex, ?_, ?_, ?_⟩
      · rw [← heffs]; simp
      · intro a b hab
        rw [← heffs] at hab
        rcases List.mem_append.mp hab with hab | hab
        · obtain ⟨s2, hs2⟩ := hmsgs _ hab
          exact Eff.noConfusion hs2
        · simp at hab
      · intro a b hab
        rw [← heffs] at hab
        rcases List.mem_append.mp hab with hab | hab
        · obtain ⟨s2, hs2⟩ := hmsgs _ hab
          exact Eff.noConfusion hs2
        · simp at hab

/-- Witness for C1: Scenario D at a concrete world. -/
theorem c1_copy_source_classification_witness :
    (initSt demoRoot : St) = initSt demoRoot ∧
    Eff.msg "cp: no such file: nonexistent.txt" ∈
      ([Eff.msg "cp: no such file: nonexistent.txt"] : List Eff) := by
  have h := (c1_copy_source_classification demoW (initSt demoRoot) (initSt demoRoot)
      "nonexistent.txt" "x.txt" [Eff.msg "cp: no such file: nonexistent.txt"] false
      (by decide)).2.2 (by decide)
  exact ⟨h.1, h.2.2.1⟩

/-- C2 counterexample: with Real source `/tmp/a.txt` and destination
string `/x` absent from the mapping, the code invokes `cp` with
destination `/x` itself — pathlib's `/` discards the current location
for an absolute right operand — not the literal new child `/r//x` under
the current mount location that the claim prescribes. -/
theorem c2_counterexample :
    step realW (initSt demoRoot) "cp" ["/tmp/a.txt", "/x"] =
      .ok (initSt demoRoot,
           [Eff.cpRun "/tmp/a.txt" "/x", Eff.msg "Copied /tmp/a.txt → /x"], false) ∧
    lookupName (buildMapping realW (realW.children demoRoot)) "/x" = none ∧
    Eff.cpRun "/tmp/a.txt" (specChildDest demoRoot "/x").str ∉
      ([Eff.cpRun "/tmp/a.txt" "/x", Eff.msg "Copied /tmp/a.txt → /x"] : List Eff) := by
  refine ⟨by decide, by decide, by decide⟩

/-- C2 (amended): for a Real-classified source, the destination string
is looked up in the fresh mapping; a hit is the overwrite target, and on
a miss the destination is `current_path / dst` by pathlib join — the
literal new child for a relative destination string, while an absolute
destination string replaces the current location entirely.  `cp` is
invoked with that destination and it is echoed on success. -/
theorem c2_real_source_copy (w : World) (st st2 : St) (src dst : String)
    (effs : List Eff) (ex : Bool)
    (h : step w st "cp" [src, dst] = .ok (st2, effs, ex))
    (hreal : ((parsePath src).absolute && w.realExists (parsePath src)) = true) :
    Eff.cpRun (parsePath src).str
      (realDst (buildMapping w (w.children st.current_path)) st.current_path dst).str
      ∈ effs ∧
    (w.cpOk (parsePath src).str
        (realDst (buildMapping w (w.children st.current_path)) st.current_path dst).str
        = true →
      Eff.msg ("Copied " ++ (parsePath src).str ++ " → " ++
        (realDst (buildMapping w (w.children st.current_path)) st.current_path dst).str)
        ∈ effs) ∧
    (lookupName (buildMapping w (w.children st.current_path)) dst = none →
      realDst (buildMapping w (w.children st.current_path)) st.current_path dst =
        st.current_path.div dst) := by
  rw [step_cp_eq] at h
  obtain ⟨h1, hex⟩ := liftCmd_ok h
  unfold cpCmd at h1
  cases hl : list_dir w st.current_path true with
  | error u => simp only [hl] at h1; exact Except.noConfusion h1
  | ok me =>
    obtain ⟨mapping, e1⟩ := me
    have hmm := list_dir_mapping hl
    simp only [hl] at h1
    rw [hmm] at h1
    rw [if_pos hreal] at h1
    refine ⟨?_, ?_, ?_⟩
    · split at h1 <;>
      · simp only [Except.ok.injEq, Prod.mk.injEq] at h1
        rw [← h1.2]
        simp
    · intro hcp
      rw [if_pos hcp] at h1
      simp only [Except.ok.injEq, Prod.mk.injEq] at h1
      rw [← h1.2]
      simp
    · intro hn
      unfold realDst
      rw [hn]

/-- Witness for the amended C2: Scenario B at a concrete world. -/
theorem c2_real_source_copy_witness :
    Eff.cpRun "/tmp/a.txt" "/r/report.pdf" ∈
      ([Eff.cpRun "/tmp/a.txt" "/r/report.pdf",
        Eff.msg "Copied /tmp/a.txt → /r/report.pdf"] : List Eff) ∧
    Eff.msg "Copied /tmp/a.txt → /r/report.pdf" ∈
      ([Eff.cpRun "/tmp/a.txt" "/r/report.pdf",
        Eff.msg "Copied /tmp/a.txt → /r/report.pdf"] : List Eff) := by
  have h := c2_real_source_copy realW (initSt demoRoot) (initSt demoRoot)
      "/tmp/a.txt" "report.pdf"
      [Eff.cpRun "/tmp/a.txt" "/r/report.pdf",
       Eff.msg "Copied /tmp/a.txt → /r/report.pdf"] false
      (by decide) (by decide)
  exact ⟨h.1, h.2.1 (by decide)⟩

theorem cpRun_not_mem {e1 : List Eff} (hmsgs : ∀ x ∈ e1, ∃ s, x = Eff.msg s)
    (g dp m2 : String) (a b : String) :
    Eff.cpRun a b ∉ (e1 ++ []) ++ [Eff.gioCopyRun g dp, Eff.msg m2] := by
  intro hab
  rcases List.mem_append.mp hab with hab | hab
  · rcases List.mem_append.mp hab with hab | hab
    · obtain ⟨s2, hs2⟩ := hmsgs _ hab
      exact Eff.noConfusion hs2
    · simp at hab
  · rcases List.mem_cons.mp hab with heq | hab
    · exact Eff.noConfusion heq
    · rw [List.mem_singleton] at hab
      exact Eff.noConfusion hab

/-- C3: for a Mount-classified source with an absolute destination
string, the mount-aware `gio copy` tool is invoked and the generic `cp`
never is; when the destination names an existing real directory, the
source's resolved display name is appended as the final path
component. -/
theorem c3_mount_to_real_copy (w : World) (st st2 : St) (src dst : String)
    (effs : List Eff) (ex : Bool) (sp : PPath)
    (h : step w st "cp" [src, dst] = .ok (st2, effs, ex))
    (hnr : ¬ ((parsePath src).absolute && w.realExists (parsePath src)) = true)
    (hsp : lookupName (buildMapping w (w.children st.current_path)) src = some sp)
    (habs : pyStartsWith dst "/" = true) :
    (∀ a b, Eff.cpRun a b ∉ effs) ∧
    (∃ dp, Eff.gioCopyRun sp.str dp ∈ effs) ∧
    (w.realIsDir (parsePath dst) = true →
      ∃ n, resolveName w sp = some n ∧ n ≠ "" ∧
        Eff.gioCopyRun sp.str ((parsePath dst).div n).str ∈ effs) := by
  rw [step_cp_eq] at h
  obtain ⟨h1, hex⟩ := liftCmd_ok h
  unfold cpCmd at h1
  cases hl : list_dir w st.current_path true with
  | error u => simp only [hl] at h1; exact Except.noConfusion h1
  | ok me =>
    obtain ⟨mapping, e1⟩ := me
    have hmsgs := list_dir_effs_msgs hl
    have hmm := list_dir_mapping hl
    have hav : w.gioAvailable = true :=
      list_dir_lookup_available hl (by rw [hmm]; exact hsp)
    simp only [hl] at h1
    rw [hmm] at h1
    rw [if_neg hnr] at h1
    simp only [hsp] at h1
    rw [if_pos habs] at h1
    -- the source was resolved while the mapping was built
    have htr : truthyName w sp = some src :=
      (buildMapping_mem_pairs (lookupName_mem hsp)).2
    have hres : resolveName w sp = some src ∧ src ≠ "" := by
      unfold truthyName at htr
      cases hr : resolveName w sp with
      | none =>
        simp only [hr] at htr
        exact Option.noConfusion htr
      | some n0 =>
        simp only [hr] at htr
        by_cases hn0 : n0 = ""
        · rw [if_pos hn0] at htr
          exact Option.noConfusion htr
        · rw [if_neg hn0] at htr
          have h5 := Option.some_inj.mp htr
          exact ⟨by rw [h5], by rw [← h5]; exact hn0⟩
    have hgdn : get_display_name w sp = .ok (some src, []) := by
      cases hg : w.gioRun sp with
      | none =>
        exfalso
        have : resolveName w sp = none := by simp [resolveName, hg]
        rw [this] at hres
        exact Option.noConfusion hres.1
      | some lines =>
        rw [get_display_name_ok hav sp, hg]
        rw [hres.1]
    have hgd : gioDst w sp (parsePath dst) =
        .ok ((if w.realIsDir (parsePath dst) then (parsePath dst).div src
              else parsePath dst), []) := by
      unfold gioDst
      split
      · simp only [hgdn]
        rw [if_neg hres.2]
      · rfl
    cases hdir : w.realIsDir (parsePath dst) with
    | true =>
      rw [if_pos hdir] at hgd
      simp only [hgd] at h1
      obtain ⟨msg2, heffs⟩ : ∃ msg2, effs = (e1 ++ []) ++
          [Eff.gioCopyRun sp.str ((parsePath dst).div src).str, Eff.msg msg2] := by
        split at h1 <;>
        · injection h1 with h2
          exact ⟨_, (congrArg Prod.snd h2).symm⟩
      refine ⟨?_, ?_, ?_⟩
      · intro a b hab
        rw [heffs] at hab
        exact cpRun_not_mem hmsgs _ _ _ a b hab
      · refine ⟨((parsePath dst).div src).str, ?_⟩
        rw [heffs]
        simp
      · intro _
        refine ⟨src, hres.1, hres.2, ?_⟩
        rw [heffs]
        simp
    | false =>
      rw [if_neg (by simp [hdir])] at hgd
      simp only [hgd] at h1
      obtain ⟨msg2, heffs⟩ : ∃ msg2, effs = (e1 ++ []) ++
          [Eff.gioCopyRun sp.str (parsePath dst).str, Eff.msg msg2] := by
        split at h1 <;>
        · injection h1 with h2
          exact ⟨_, (congrArg Prod.snd h2).symm⟩
      refine ⟨?_, ?_, ?_⟩
      · intro a b hab
        rw [heffs] at hab
        exact cpRun_not_mem hmsgs _ _ _ a b hab
      · refine ⟨(parsePath dst).str, ?_⟩
        rw [heffs]
        simp
      · intro hdir2
        exact absurd hdir2 (by simp [hdir])

/-- Witness for C3: Scenario C at a concrete world. -/
theorem c3_mount_to_real_copy_witness :
    Eff.gioCopyRun "/r/c1" "/tmp/A" ∈
      ([Eff.gioCopyRun "/r/c1" "/tmp/A",
        Eff.msg "Copied /r/c1 → /tmp/A via gio"] : List Eff) := by
  obtain ⟨n, hn, -, hmem⟩ := (c3_mount_to_real_copy demoW (initSt demoRoot) (initSt demoRoot)
      "A" "/tmp"
      [Eff.gioCopyRun "/r/c1" "/tmp/A", Eff.msg "Copied /r/c1 → /tmp/A via gio"] false demoC1
      (by decide) (by decide) (by decide) (by decide)).2.2 (by decide)
  have hnA : n = "A" := by
    have h2 : resolveName demoW demoC1 = some "A" := by decide
    rw [h2] at hn
    exact (Option.some_inj.mp hn).symm
  rw [hnA] at hmem
  exact hmem

/-! ### C4: keys of the mapping versus resolvable children -/

theorem successNames_length (w : World) (cs : List PPath) :
    (successNames w cs).length = (succChildren w cs).length := by
  induction cs with
  | nil => rfl
  | cons c rest ih =>
    cases htn : truthyName w c with
    | none =>
      simp [successNames, succChildren, List.filterMap_cons, List.filter_cons, htn] at ih ⊢
      exact ih
    | some n =>
      simp [successNames, succChildren, List.filterMap_cons, List.filter_cons, htn] at ih ⊢
      exact ih

theorem succChildren_nodup (w : World) (cs : List PPath)
    (h : (successNames w cs).Nodup) : (succChildren w cs).Nodup := by
  induction cs with
  | nil => simp [succChildren]
  | cons c rest ih =>
    cases htn : truthyName w c with
    | none =>
      have hs : successNames w (c :: rest) = successNames w rest := by
        simp [successNames, List.filterMap_cons, htn]
      have hc2 : succChildren w (c :: rest) = succChildren w rest := by
        simp [succChildren, List.filter_cons, htn]
      rw [hc2]
      rw [hs] at h
      exact ih h
    | some n =>
      have hs : successNames w (c :: rest) = n :: successNames w rest := by
        simp [successNames, List.filterMap_cons, htn]
      have hc2 : succChildren w (c :: rest) = c :: succChildren w rest := by
        simp [succChildren, List.filter_cons, htn]
      rw [hs] at h
      rw [hc2]
      rcases List.nodup_cons.mp h with ⟨hn, hrest⟩
      refine List.nodup_cons.mpr ⟨?_, ih hrest⟩
      intro hcmem
      apply hn
      have hcr : c ∈ rest := (List.mem_filter.mp hcmem).1
      exact List.mem_filterMap.mpr ⟨c, hcr, htn⟩

/-- C4 (amended): when the display names of the resolvable children are
pairwise distinct (no collision), the DisplayName key set of the fresh
mapping is in bijection with the resolvable children (equal finite
cardinality); and unconditionally, a child whose resolution fails never
appears as an entry of the mapping. -/
theorem c4_mapping_bijection (w : World) (d : PPath)
    (hnn : (successNames w (w.children d)).Nodup) :
    ((buildMapping w (w.children d)).map Prod.fst).toFinset.card =
      (succChildren w (w.children d)).toFinset.card ∧
    (∀ k c, truthyName w c = none → (k, c) ∉ buildMapping w (w.children d)) := by
  constructor
  · have hkn := buildMapping_keys_nodup w (w.children d)
    have hcn := succChildren_nodup w (w.children d) hnn
    have hfe : ((buildMapping w (w.children d)).map Prod.fst).toFinset =
        (successNames w (w.children d)).toFinset := by
      ext k
      simp only [List.mem_toFinset]
      exact buildMapping_mem_keys w _ k
    rw [hfe, List.toFinset_card_of_nodup hnn, List.toFinset_card_of_nodup hcn]
    exact successNames_length w _
  · intro k c htn hmem
    have h2 := (buildMapping_mem_pairs hmem).2
    rw [htn] at h2
    exact Option.noConfusion h2

/-- C4 counterexample: two children sharing the display name "a": the
mapping has one key but two children resolve, so the claimed bijection
(equal cardinality of the two finite sets) fails. -/
theorem c4_counterexample :
    ((buildMapping collW (collW.children demoRoot)).map Prod.fst).toFinset.card ≠
      (succChildren collW (collW.children demoRoot)).toFinset.card := by decide

/-- Witness for the amended C4. -/
theorem c4_mapping_bijection_witness :
    ((buildMapping demoW (demoW.children demoRoot)).map Prod.fst).toFinset.card =
      (succChildren demoW (demoW.children demoRoot)).toFinset.card :=
  (c4_mapping_bijection demoW demoRoot (by decide)).1

/-- C5: a non-silent listing prints exactly the mapping's display names
in case-sensitive lexicographic order (after any per-child error lines),
and the printed sorted sequence does not depend on the order in which
the mount layer enumerated the children. -/
theorem c5_sorted_listing (w : World) (p : PPath) (m : List (String × PPath))
    (effs : List Eff) (h : list_dir w p false = .ok (m, effs)) :
    (∃ pre, (∀ x ∈ pre, ∃ s, x = Eff.msg s) ∧
       effs = pre ++ (sortNames (m.map Prod.fst)).map Eff.msg) ∧
    List.Pairwise strLeP (sortNames (m.map Prod.fst)) ∧
    (sortNames (m.map Prod.fst)).Perm (m.map Prod.fst) ∧
    (∀ w2 m2 effs2, w2.gioRun = w.gioRun → (w2.children p).Perm (w.children p) →
      list_dir w2 p false = .ok (m2, effs2) →
      sortNames (m2.map Prod.fst) = sortNames (m.map Prod.fst)) := by
  refine ⟨?_, sortNames_sorted _, sortNames_perm _, ?_⟩
  · cases hav : w.gioAvailable
    · rcases list_dir_not_available hav h with ⟨hc, hm, he⟩
      refine ⟨[], by simp, ?_⟩
      rw [he, hm]
      simp [sortNames]
    · rw [list_dir_ok_loud w p hav] at h
      injection h with h2
      have hm : buildMapping w (w.children p) = m := congrArg Prod.fst h2
      have he : errEffs w (w.children p) ++
          (sortNames ((buildMapping w (w.children p)).map Prod.fst)).map Eff.msg = effs :=
        congrArg Prod.snd h2
      subst hm
      refine ⟨errEffs w (w.children p), fun x hx => errEffs_msgs hx, ?_⟩
      rw [← he]
  · intro w2 m2 effs2 hgio hperm h2
    have hm1 : m = buildMapping w (w.children p) := list_dir_mapping h
    have hm2 : m2 = buildMapping w2 (w2.children p) := list_dir_mapping h2
    have htn : truthyName w2 = truthyName w := by
      funext q
      simp [truthyName, resolveName, hgio]
    have hk1 := buildMapping_keys_nodup w (w.children p)
    have hk2 := buildMapping_keys_nodup w2 (w2.children p)
    have hmemiff : ∀ k, k ∈ (buildMapping w2 (w2.children p)).map Prod.fst ↔
        k ∈ (buildMapping w (w.children p)).map Prod.fst := by
      intro k
      rw [buildMapping_mem_keys, buildMapping_mem_keys]
      unfold successNames
      rw [htn]
      exact (hperm.filterMap (truthyName w)).mem_iff
    have hpk : ((buildMapping w2 (w2.children p)).map Prod.fst).Perm
        ((buildMapping w (w.children p)).map Prod.fst) :=
      (hk2.subperm (fun k hk => (hmemiff k).mp hk)).antisymm
        (hk1.subperm (fun k hk => (hmemiff k).mpr hk))
    rw [hm1, hm2]
    exact sortNames_eq_of_perm hpk

/-- Witness for C5: two children displaying "b" then "a" print sorted as
"a", "b", and the reversed enumeration order prints the same sequence. -/
theorem c5_sorted_listing_witness :
    List.Pairwise strLeP
      (sortNames (([("b", sortC1), ("a", sortC2)] : List (String × PPath)).map Prod.fst)) ∧
    sortNames (([("a", sortC2), ("b", sortC1)] : List (String × PPath)).map Prod.fst) =
      sortNames (([("b", sortC1), ("a", sortC2)] : List (String × PPath)).map Prod.fst) := by
  have h := c5_sorted_listing sortW demoRoot [("b", sortC1), ("a", sortC2)]
      [Eff.msg "a", Eff.msg "b"] (by decide)
  exact ⟨h.2.1, h.2.2.2 sortWRev [("a", sortC2), ("b", sortC1)] [Eff.msg "a", Eff.msg "b"]
      rfl (by decide) (by decide)⟩
